import Mathlib

/-!
Shallow embedding of `scripts/toolradar_scan.py` (the ToolRadar
discovery-scoring-merge pipeline) and proofs of the spec's testable
properties.  Python strings are modelled as `String`/`List Char`
(ASCII lowering), Python `int` as `Int`, Python `float` (only used for
`age_years`) as `ℚ`, Python dicts keyed by strings as association
lists that preserve insertion order, and Python's stable `list.sort`
as a stable insertion sort on the same key.
-/

namespace ToolRadar

/-- Python `\s` whitespace class restricted to ASCII, as used by
`str.strip()` and `re.sub(r"\s+", " ", ...)` on the tool names. -/
def pyIsSpace (c : Char) : Bool :=
  c = ' ' || c = '\t' || c = '\n' || c = '\r' || c = '\x0b' || c = '\x0c'

/-- Python `str.lower()` restricted to ASCII (`Char.toLower`). -/
def pyLower (s : String) : String :=
  String.mk (s.toList.map Char.toLower)

/-- `str.strip()`: drop whitespace from both ends. -/
def stripChars (l : List Char) : List Char :=
  ((l.dropWhile pyIsSpace).reverse.dropWhile pyIsSpace).reverse

/-- Helper for `collapseWs`: `prevSpace` records whether the previous
character belonged to a whitespace run already emitted as one space. -/
def collapseWsAux (prevSpace : Bool) : List Char → List Char
  | [] => []
  | c :: rest =>
      if pyIsSpace c then
        if prevSpace then collapseWsAux true rest
        else ' ' :: collapseWsAux true rest
      else c :: collapseWsAux false rest

/-- `re.sub(r"\s+", " ", ...)`: replace every maximal whitespace run by a
single space. -/
def collapseWs (l : List Char) : List Char :=
  collapseWsAux false l

/-- `normalize_name` (line 64): `re.sub(r"\s+", " ", name.strip().lower())`. -/
def normalize_name (s : String) : String :=
  String.mk (collapseWs ((stripChars s.toList).map Char.toLower))

/-- `isPrefixListOf k t`: `k` is a prefix of `t` (char-by-char). -/
def isPrefixListOf : List Char → List Char → Bool
  | [], _ => true
  | _ :: _, [] => false
  | a :: as, b :: bs => a = b && isPrefixListOf as bs

/-- Python `k in t` substring test on char lists. -/
def hasSub (k : List Char) : List Char → Bool
  | [] => k.isEmpty
  | c :: rest => isPrefixListOf k (c :: rest) || hasSub k rest

/-- Python `k in t` for strings (`t` already lowercased by the callers). -/
def strContains (t k : String) : Bool :=
  hasSub k.toList t.toList

/-- `PHASE_KEYWORDS` (lines 32..42): the 9 fixed (phase, keywords) pairs. -/
def PHASE_KEYWORDS : List (String × List String) :=
  [ ("Stakeholder Needs / System Requirements", ["requirements", "alm", "traceability", "reqif"]),
    ("Architektur/Design", ["mbse", "sysml", "model-based", "architecture", "simulation"]),
    ("Implementierung", ["static analysis", "linter", "code generation", "codegen", "compiler", "ide"]),
    ("Integration & Test (Komponenten)", ["unit test", "ci", "cd", "pipeline", "coverage", "testing"]),
    ("System Integration & Validierung", ["hil", "sil", "simulation", "gazebo", "isaac", "validation"]),
    ("Release / Operations", ["observability", "monitoring", "prometheus", "grafana", "deployment"]),
    ("Safety & Security", ["iso 26262", "iec 62304", "safety", "security", "vulnerability", "sast"]),
    ("Data/AI Lifecycle", ["mlops", "model registry", "drift", "training", "inference", "feature store"]),
    ("Documentation & Audit", ["doxygen", "sphinx", "audit", "traceability", "documentation"]) ]

def EMBEDDED_HINTS : List String :=
  ["embedded", "mcu", "rtos", "zephyr", "freertos", "arm", "stm32", "bare-metal", "firmware"]

def INTEGRATION_HINTS : List String :=
  ["github actions", "jira", "gitlab", "jenkins", "docker", "kubernetes", "ros", "ros2", "cmake"]

def AUDIT_HINTS : List String :=
  ["trace", "audit", "compliance", "iso", "iec", "safety", "governance"]

def AI_HINTS_ASSISTED : List String :=
  ["llm", "genai", "copilot", "agent", "ai-powered", "assistant"]

def AI_HINTS_CORE : List String :=
  ["training", "inference", "mlops", "model registry", "drift", "synthetic data"]

/-- Does any keyword of `keys` occur in (already lowercased) text `t`? -/
def anyKeyIn (keys : List String) (t : String) : Bool :=
  keys.any (fun k => strContains t k)

/-- `infer_vmodel_phases` (lines 89..95): collect each phase whose keyword
list hits the lowercased text; fall back to `["Data/AI Lifecycle"]` when
the collected list is empty (Python `phases or [...]`). -/
def infer_vmodel_phases (text : String) : List String :=
  let t := pyLower text
  let phases := (PHASE_KEYWORDS.filter (fun pk => anyKeyIn pk.2 t)).map (fun pk => pk.1)
  if phases = [] then ["Data/AI Lifecycle"] else phases

/-- `infer_ai_involvement` (lines 97..103). -/
def infer_ai_involvement (text : String) : String :=
  let t := pyLower text
  if anyKeyIn AI_HINTS_CORE t then "core"
  else if anyKeyIn AI_HINTS_ASSISTED t then "assisted"
  else "none"

/-- `clamp` (lines 105..106) with the default bounds 0 and 5. -/
def clamp (n : Int) (lo : Int := 0) (hi : Int := 5) : Int :=
  max lo (min hi n)

/-- `score_maturity` (lines 122..132). -/
def score_maturity (stars : Int) (age_years : ℚ) (updated_days : Int) : Int :=
  let s : Int :=
    if stars ≥ 5000 then 5
    else if stars ≥ 1000 then 4
    else if stars ≥ 200 then 3
    else if stars ≥ 50 then 2
    else 1
  let s := if age_years ≥ 5 then s + 1 else s
  let s :=
    if updated_days > 365 then s - 2
    else if updated_days > 180 then s - 1
    else if updated_days < 30 then s + 1
    else s
  clamp s 0 5

/-- `score_community` (lines 134..144), including the no-op
`elif forks >= 100: base += 0` branch. -/
def score_community (stars forks open_issues : Int) : Int :=
  let base : Int :=
    if stars ≥ 5000 then 5
    else if stars ≥ 1000 then 4
    else if stars ≥ 200 then 3
    else if stars ≥ 50 then 2
    else 1
  let base := if forks ≥ 500 then base + 1 else if forks ≥ 100 then base + 0 else base
  let base := if open_issues ≥ 500 then base - 1 else base
  clamp base 0 5

/-- Shared hit-count-to-score step table of the three text scorers. -/
def hitScore (hits : Nat) : Int :=
  if hits ≥ 4 then 5
  else if hits = 3 then 4
  else if hits = 2 then 3
  else if hits = 1 then 2
  else 1

/-- Number of hint keywords occurring in the lowercased text. -/
def countHits (hints : List String) (text : String) : Nat :=
  (hints.filter (fun k => strContains (pyLower text) k)).length

/-- `score_embedded` (lines 146..153). -/
def score_embedded (text : String) : Int :=
  hitScore (countHits EMBEDDED_HINTS text)

/-- `score_integration` (lines 155..162). -/
def score_integration (text : String) : Int :=
  hitScore (countHits INTEGRATION_HINTS text)

/-- `score_audit` (lines 164..171). -/
def score_audit (text : String) : Int :=
  hitScore (countHits AUDIT_HINTS text)

/-- `ai_value` (lines 173..174): dict lookup with default 2. -/
def ai_value (ai_involvement : String) : Int :=
  if ai_involvement = "none" then 1
  else if ai_involvement = "assisted" then 3
  else if ai_involvement = "core" then 5
  else 2

/-- The constant `"TCO": 5` entry of the scores dict (line 236). -/
def tco_score : Int := 5

/-- Association-list lookup with default, modelling Python `dict.get`. -/
def dictGetD (l : List (String × Int)) (k : String) (d : Int) : Int :=
  match l.find? (fun p => p.1 = k) with
  | some p => p.2
  | none => d

/-- `classify` (lines 176..183). -/
def classify (scores : List (String × Int)) : String :=
  let m := dictGetD scores "Maturity" 0
  let a := dictGetD scores "AIValue" 0
  if m ≥ 4 ∧ a ≥ 3 then "Adopt"
  else if m ≥ 3 ∧ a ≥ 3 then "Trial"
  else if m ≥ 2 then "Assess"
  else "Hold"

/-- Embedded snapshot `Repo` of the repository metadata (lines 255..263). -/
structure RepoInfo where
  full_name : String
  url : String
  stars : Int
  forks : Int
  open_issues : Int
  pushed_at : String
  created_at : String
deriving DecidableEq

/-- A catalog record (`ToolRecord`), as assembled in lines 242..265.
Absent optional strings are the empty string, as in the script. -/
structure Tool where
  ToolName : String
  VendorOrganisation : String := "Open Source"
  ToolType : String := "Open Source"
  PrimaryUse : String := ""
  VModelPhases : List String := []
  AIInvolvement : String := "none"
  Classification : String := "Hold"
  EvidenceLinks : List String := []
  LastVerifiedDate : String := ""
  UpdateSignal : List String := ["GitHubReleases"]
  RiskFlags : List String := ["Unvalidated (auto-discovered)"]
  Notes : String := ""
  Repo : RepoInfo := ⟨"", "", 0, 0, 0, "", ""⟩
  Scores : List (String × Int) := []
deriving DecidableEq

/-- The sort key `(x.get("ToolName") or "").lower()` used by both
`scout_github` (line 283) and `merge_tools` (line 300). -/
def nameKey (t : Tool) : String := pyLower t.ToolName

/-- Lexicographic code-point comparison of char lists, modelling Python's
string `<=`. -/
def lexLe : List Char → List Char → Bool
  | [], _ => true
  | _ :: _, [] => false
  | a :: as, b :: bs => if a < b then true else if b < a then false else lexLe as bs

/-- `toolLe a b`: `a` sorts no later than `b` under the case-insensitive
name key. -/
def toolLe (a b : Tool) : Bool := lexLe (nameKey a).toList (nameKey b).toList

/-- Stable insertion of `a` into an already sorted list: `a` is placed
before the first strictly larger element, hence after its equals, exactly
as Python's stable sort orders a later-arriving equal element. -/
def insertTool (a : Tool) : List Tool → List Tool
  | [] => [a]
  | b :: bs => if toolLe a b then a :: b :: bs else b :: insertTool a bs

/-- Stable sort by the case-insensitive name key, modelling
`list.sort(key=lambda x: (x.get("ToolName") or "").lower())`. -/
def sortTools : List Tool → List Tool
  | [] => []
  | t :: ts => insertTool t (sortTools ts)

/-- `k in idx` for the insertion-ordered dict modelled as an assoc list. -/
def dictHasKey (m : List (String × Tool)) (k : String) : Bool :=
  m.any (fun p => p.1 = k)

/-- Python dict assignment `m[k] = v`: replace in place when the key
exists (keeping its position), else append. -/
def dictInsert (m : List (String × Tool)) (k : String) (v : Tool) : List (String × Tool) :=
  if dictHasKey m k then m.map (fun p => if p.1 = k then (k, v) else p)
  else m ++ [(k, v)]

/-- One step of the dict comprehension of line 287: skip falsy (empty)
names, otherwise bind the normalized name to the record. -/
def idxStep (m : List (String × Tool)) (t : Tool) : List (String × Tool) :=
  if t.ToolName = "" then m else dictInsert m (normalize_name t.ToolName) t

/-- The dict comprehension of line 287:
`{normalize_name(t.get("ToolName", "")): t for t in existing if t.get("ToolName")}`. -/
def buildIdx (existing : List Tool) : List (String × Tool) :=
  existing.foldl idxStep []

/-- The insertion loop of lines 291..297 over the new batch. -/
def mergeLoop (idx : List (String × Tool)) (inserted : Nat) (items : List Tool) :
    List Tool → List (String × Tool) × Nat × List Tool
  | [] => (idx, inserted, items)
  | c :: cs =>
      let k := normalize_name c.ToolName
      if k = "" ∨ dictHasKey idx k then mergeLoop idx inserted items cs
      else mergeLoop (idx ++ [(k, c)]) (inserted + 1) (items ++ [c]) cs

/-- `merge_tools` (lines 286..301): seed a dict with the existing catalog,
insert new candidates under absent keys only, return the values sorted by
the case-insensitive name key, the insertion count and the inserted
records. -/
def merge_tools (existing new : List Tool) : List Tool × Nat × List Tool :=
  let r := mergeLoop (buildIdx existing) 0 [] new
  (sortTools (r.1.map (fun p => p.2)), r.2.1, r.2.2)

/-- The accumulation inner loop of lines 210..268: append each item, then
break as soon as `len(candidates) >= max_results * 3`. -/
def collectInner (cap : Int) (acc : List Tool) : List Tool → List Tool
  | [] => acc
  | it :: rest =>
      let acc2 := acc ++ [it]
      if (acc2.length : Int) ≥ cap then acc2 else collectInner cap acc2 rest

/-- The per-query outer loop of lines 199..270 with its own break on the
same bound. -/
def collectOuter (cap : Int) (acc : List Tool) : List (List Tool) → List Tool
  | [] => acc
  | q :: rest =>
      let acc2 := collectInner cap acc q
      if (acc2.length : Int) ≥ cap then acc2 else collectOuter cap acc2 rest

/-- The dedup loop of lines 272..282: keep the first occurrence of each
normalized name, breaking once `len(uniq) >= max_results`. -/
def dedupLoop (maxResults : Int) (seen : List String) (uniq : List Tool) :
    List Tool → List Tool
  | [] => uniq
  | c :: cs =>
      let k := normalize_name c.ToolName
      if k ∈ seen then dedupLoop maxResults seen uniq cs
      else
        let uniq2 := uniq ++ [c]
        if (uniq2.length : Int) ≥ maxResults then uniq2
        else dedupLoop maxResults (k :: seen) uniq2 cs

/-- The batch-level dedup stage of `scout_github` (lines 197..284), with
the per-query search results supplied as data: accumulate under the
`3 × max` cap, dedup by normalized name, truncate to `max`, sort. -/
def scout_dedup (maxResults : Int) (queries : List (List Tool)) : List Tool :=
  let candidates := collectOuter (maxResults * 3) [] queries
  let uniq := dedupLoop maxResults [] [] candidates
  sortTools uniq

/-- The evidence list of lines 241 and 250:
`[html_url, homepage or html_url][:2]`. -/
def buildEvidenceLinks (html_url homepage : String) : List String :=
  let evidence := [html_url, if homepage = "" then html_url else homepage]
  evidence.take 2

/-- The candidate builder of lines 210..265 for one search item.  The
time-dependent values `updated_days` and `age_years` are passed in as the
script computes them (lines 227..228), and `today` stands for
`dt.date.today().isoformat()`. -/
def buildCandidate (name full_name html_url homepage desc created pushed : String)
    (stars forks open_issues : Int) (age_years : ℚ) (updated_days : Int)
    (owner_login q today : String) : Tool :=
  let blob := full_name ++ " " ++ desc
  let phases := infer_vmodel_phases blob
  let ai := infer_ai_involvement blob
  let scores : List (String × Int) :=
    [ ("Maturity", score_maturity stars age_years updated_days),
      ("Integration", score_integration blob),
      ("EmbeddedFit", score_embedded blob),
      ("AuditTraceability", score_audit blob),
      ("AIValue", ai_value ai),
      ("TCO", tco_score),
      ("CommunitySupport", score_community stars forks open_issues) ]
  { ToolName := name
    VendorOrganisation := owner_login
    ToolType := "Open Source"
    PrimaryUse := if desc = "" then "Open-source tool (discovered via GitHub search)" else desc
    VModelPhases := phases
    AIInvolvement := ai
    Classification := classify scores
    EvidenceLinks := buildEvidenceLinks html_url homepage
    LastVerifiedDate := today
    UpdateSignal := ["GitHubReleases"]
    RiskFlags := ["Unvalidated (auto-discovered)"]
    Notes := "Discovered via GitHub search query: " ++ q ++ ". Scores are heuristic."
    Repo := ⟨full_name, html_url, stars, forks, open_issues, pushed, created⟩
    Scores := scores }

/-- One entry of the signal feed (lines 332..337 and 352). -/
inductive Signal where
  | newTool (tool : String) (vendor : String) (evidence : List String)
  | fatalError (message : String)
deriving DecidableEq

/-- One broken-link record `{tool, link, info}` (line 327). -/
structure BrokenLink where
  tool : String
  link : String
  info : String
deriving DecidableEq

/-- The signal-feed document (lines 339..343 and 350..354), minus the
timestamp. -/
structure SignalsDoc where
  signals : List Signal
  broken_links : List BrokenLink
deriving DecidableEq

/-- The observable outcome of one run of `main`: what was written to the
catalog document (if anything), the signal document, and the exit code. -/
structure RunOutcome where
  catalogWrite : Option (List Tool)
  signalsWrite : SignalsDoc
  exitCode : Nat
deriving DecidableEq

/-- The validator loop of lines 320..327 over `merged[:80]`: probe the
first evidence link of each record that has one; failures become data. -/
def collectBroken (probe : String → Bool × String) (merged : List Tool) : List BrokenLink :=
  (merged.take 80).foldl
    (fun acc t =>
      match t.EvidenceLinks with
      | [] => acc
      | l :: _ =>
          let r := probe l
          if r.1 then acc else acc ++ [⟨t.ToolName, l, r.2⟩]) []

/-- `main` (lines 303..356) with the I/O factored out: `discovery` is the
result of the search phase (`scout_github`), which is the only fallible
step inside the `try` block before the catalog write (`http_head_ok`
catches every exception internally, line 86, so probing is modelled as a
total function `probe`).  On failure nothing is written to the catalog,
the signal document carries a single ERROR entry with empty broken links,
and the exit code is 1; on success the merged catalog is written and the
exit code is 0. -/
def runPipeline (existing : List Tool) (discovery : Except String (List Tool))
    (probe : String → Bool × String) : RunOutcome :=
  match discovery with
  | Except.error e =>
      ⟨none, ⟨[Signal.fatalError e], []⟩, 1⟩
  | Except.ok discovered =>
      let r := merge_tools existing discovered
      let merged := r.1
      let inserted_items := r.2.2
      let broken := collectBroken probe merged
      let signals := (inserted_items.take 50).map
        (fun x => Signal.newTool x.ToolName x.VendorOrganisation (x.EvidenceLinks.take 1))
      ⟨some merged, ⟨signals, broken⟩, 0⟩

/-! ### Spec-side definitions for refinement claims -/

/-- Modelled from the spec: the Maturity formula exactly as C4 words it —
a star-bucket base, a +1 age bonus, then one mutually exclusive recency
adjustment chosen in order, clamped to [0,5]. -/
def maturity_spec (stars : Int) (age_years : ℚ) (updated_days : Int) : Int :=
  let base : Int :=
    if stars ≥ 5000 then 5
    else if stars ≥ 1000 then 4
    else if stars ≥ 200 then 3
    else if stars ≥ 50 then 2
    else 1
  let ageBonus : Int := if age_years ≥ 5 then 1 else 0
  let adj : Int :=
    if updated_days > 365 then -2
    else if updated_days > 180 then -1
    else if updated_days < 30 then 1
    else 0
  clamp (base + ageBonus + adj) 0 5

/-- Modelled from the spec: the tier rules of C5 as a function of the two
scores, evaluated top-to-bottom with first match winning. -/
def classify_spec (m a : Int) : String :=
  if m ≥ 4 ∧ a ≥ 3 then "Adopt"
  else if m ≥ 3 ∧ a ≥ 3 then "Trial"
  else if m ≥ 2 then "Assess"
  else "Hold"

/-- A scores dict holding just the two entries `classify` reads. -/
def mkScores (m a : Int) : List (String × Int) :=
  [("Maturity", m), ("AIValue", a)]

/-- Does the phase's keyword list hit the lowercased text?  (The filter
condition of `infer_vmodel_phases`.) -/
def phaseMatches (text : String) (pk : String × List String) : Bool :=
  anyKeyIn pk.2 (pyLower text)

/-- The core-keyword test of `infer_ai_involvement`. -/
def hasCoreHint (text : String) : Bool :=
  anyKeyIn AI_HINTS_CORE (pyLower text)

/-- The assisted-keyword test of `infer_ai_involvement`. -/
def hasAssistedHint (text : String) : Bool :=
  anyKeyIn AI_HINTS_ASSISTED (pyLower text)

/-- Modelled from the spec claim C8's wording: plain first-occurrence
dedup by normalized name, no truncation. -/
def dedupByName (seen : List String) : List Tool → List Tool
  | [] => []
  | c :: cs =>
      if normalize_name c.ToolName ∈ seen then dedupByName seen cs
      else c :: dedupByName (normalize_name c.ToolName :: seen) cs

/-- Modelled from the spec claim C8's wording: accumulate the first
`3 × max_results` raw candidates, dedup by normalized name keeping first
occurrences, truncate to `max_results`, sort case-insensitively. -/
def scout_spec (maxResults : Int) (queries : List (List Tool)) : List Tool :=
  sortTools ((dedupByName [] (queries.flatten.take (3 * maxResults).toNat)).take maxResults.toNat)

/-! ### Helper lemmas -/

theorem clamp_nonneg (n : Int) : 0 ≤ clamp n 0 5 := by
  simp only [clamp]
  omega

theorem clamp_le_five (n : Int) : clamp n 0 5 ≤ 5 := by
  simp only [clamp]
  omega

theorem hitScore_bounds (h : Nat) : 0 ≤ hitScore h ∧ hitScore h ≤ 5 := by
  simp only [hitScore]
  split_ifs <;> omega

/-! ### Claim theorems -/

/-- C3: every one of the seven dimension scorers returns an integer in
[0,5] for all inputs (a fortiori for the claim's valid inputs), and in
particular `Maturity(stars=0, age_years=0, updated_days=99999) = 0`. -/
theorem dimension_scores_bounded :
    (∀ (stars : Int) (age_years : ℚ) (updated_days : Int),
        0 ≤ score_maturity stars age_years updated_days ∧
        score_maturity stars age_years updated_days ≤ 5) ∧
    (∀ stars forks open_issues : Int,
        0 ≤ score_community stars forks open_issues ∧
        score_community stars forks open_issues ≤ 5) ∧
    (∀ text, 0 ≤ score_embedded text ∧ score_embedded text ≤ 5) ∧
    (∀ text, 0 ≤ score_integration text ∧ score_integration text ≤ 5) ∧
    (∀ text, 0 ≤ score_audit text ∧ score_audit text ≤ 5) ∧
    (∀ ai, 0 ≤ ai_value ai ∧ ai_value ai ≤ 5) ∧
    (0 ≤ tco_score ∧ tco_score ≤ 5) ∧
    score_maturity 0 0 99999 = 0 := by
  refine ⟨?_, ?_, ?_, ?_, ?_, ?_, ?_, ?_⟩
  · intro stars age_years updated_days
    exact ⟨clamp_nonneg _, clamp_le_five _⟩
  · intro stars forks open_issues
    exact ⟨clamp_nonneg _, clamp_le_five _⟩
  · intro text
    exact hitScore_bounds _
  · intro text
    exact hitScore_bounds _
  · intro text
    exact hitScore_bounds _
  · intro ai
    simp only [ai_value]
    split_ifs <;> omega
  · simp [tco_score]
  · decide

/-- C4: `score_maturity` computes exactly the spec's formula — star-bucket
base, +1 for age ≥ 5, one mutually exclusive recency adjustment chosen in
order, then the clamp to [0,5]. -/
theorem score_maturity_eq_spec :
    ∀ (stars : Int) (age_years : ℚ) (updated_days : Int),
      score_maturity stars age_years updated_days =
        maturity_spec stars age_years updated_days := by
  intro stars age_years updated_days
  simp only [score_maturity, maturity_spec, clamp]
  split_ifs <;> omega

/-- C5: `classify` evaluates the four tier rules top-to-bottom with first
match winning, and with AIValue ≥ 3 fixed, Maturity 2, 3, 4 classify as
Assess, Trial, Adopt respectively. -/
theorem classify_rules_and_monotone :
    (∀ m a : Int, classify (mkScores m a) = classify_spec m a) ∧
    (∀ a : Int, 3 ≤ a →
      classify (mkScores 2 a) = "Assess" ∧
      classify (mkScores 3 a) = "Trial" ∧
      classify (mkScores 4 a) = "Adopt") := by
  have hrule : ∀ m a : Int, classify (mkScores m a) = classify_spec m a := by
    intro m a
    have h1 : dictGetD (mkScores m a) "Maturity" 0 = m := rfl
    have h2 : dictGetD (mkScores m a) "AIValue" 0 = a := rfl
    simp only [classify, h1, h2, classify_spec]
  refine ⟨hrule, ?_⟩
  intro a ha
  refine ⟨?_, ?_, ?_⟩ <;>
    · rw [hrule]
      simp only [classify_spec]
      split_ifs <;> first | rfl | omega

/-- Witness for C5 at AIValue = 3: Maturity 2, 3, 4 classify as Assess,
Trial, Adopt. -/
theorem classify_rules_and_monotone_witness :
    (3 : Int) ≤ 3 ∧
    classify (mkScores 2 3) = "Assess" ∧
    classify (mkScores 3 3) = "Trial" ∧
    classify (mkScores 4 3) = "Adopt" :=
  ⟨by decide,
   (classify_rules_and_monotone.2 3 (by decide)).1,
   (classify_rules_and_monotone.2 3 (by decide)).2.1,
   (classify_rules_and_monotone.2 3 (by decide)).2.2⟩

/-- C6: phase inference never returns an empty list; when no phase's
keywords hit the text the result is exactly `["Data/AI Lifecycle"]`, and
when some phase hits, a phase label is in the result iff one of its
keywords occurs in the lowercased text. -/
theorem phase_inference_total (text : String) :
    infer_vmodel_phases text ≠ [] ∧
    ((∀ pk ∈ PHASE_KEYWORDS, phaseMatches text pk = false) →
        infer_vmodel_phases text = ["Data/AI Lifecycle"]) ∧
    ((∃ pk ∈ PHASE_KEYWORDS, phaseMatches text pk = true) →
      ∀ p, p ∈ infer_vmodel_phases text ↔
        ∃ keys, (p, keys) ∈ PHASE_KEYWORDS ∧ anyKeyIn keys (pyLower text) = true) := by
  refine ⟨?_, ?_, ?_⟩
  · simp only [infer_vmodel_phases]
    split
    · simp
    · assumption
  · intro hnone
    have hfil : PHASE_KEYWORDS.filter (fun pk => anyKeyIn pk.2 (pyLower text)) = [] := by
      rw [List.filter_eq_nil_iff]
      intro pk hpk
      simp only [phaseMatches] at hnone
      simp [hnone pk hpk]
    simp [infer_vmodel_phases, hfil]
  · intro hsome p
    obtain ⟨pk0, hpk0, hm0⟩ := hsome
    have hfil : pk0 ∈ PHASE_KEYWORDS.filter (fun pk => anyKeyIn pk.2 (pyLower text)) := by
      rw [List.mem_filter]
      exact ⟨hpk0, hm0⟩
    have hne : (PHASE_KEYWORDS.filter (fun pk => anyKeyIn pk.2 (pyLower text))).map
        (fun pk => pk.1) ≠ [] := by
      simp only [ne_eq, List.map_eq_nil_iff]
      intro h
      rw [h] at hfil
      exact List.not_mem_nil pk0 hfil
    simp only [infer_vmodel_phases, if_neg hne]
    constructor
    · intro hp
      obtain ⟨pk, hpk, hfst⟩ := List.mem_map.mp hp
      rw [List.mem_filter] at hpk
      exact ⟨pk.2, by rw [← hfst]; exact hpk.1, hpk.2⟩
    · intro ⟨keys, hmem, hcond⟩
      exact List.mem_map.mpr ⟨(p, keys), List.mem_filter.mpr ⟨hmem, hcond⟩, rfl⟩

/-- Witness for C6: a text with no keyword hit falls back to exactly
`["Data/AI Lifecycle"]`, and "gazebo robot" includes the phase whose
keyword "gazebo" it contains. -/
theorem phase_inference_total_witness :
    infer_vmodel_phases "zzzqqq" = ["Data/AI Lifecycle"] ∧
    "System Integration & Validierung" ∈ infer_vmodel_phases "gazebo robot" :=
  ⟨(phase_inference_total "zzzqqq").2.1 (by decide),
   ((phase_inference_total "gazebo robot").2.2 (by decide)
       "System Integration & Validierung").mpr
     ⟨["hil", "sil", "simulation", "gazebo", "isaac", "validation"], by decide, by decide⟩⟩

/-- C7: AI-involvement inference gives precedence core > assisted > none:
any core keyword forces "core" (even when assisted keywords are present),
an assisted keyword without any core keyword gives "assisted", and no
keyword from either list gives "none". -/
theorem ai_involvement_precedence (text : String) :
    (hasCoreHint text = true → infer_ai_involvement text = "core") ∧
    (hasCoreHint text = false → hasAssistedHint text = true →
        infer_ai_involvement text = "assisted") ∧
    (hasCoreHint text = false → hasAssistedHint text = false →
        infer_ai_involvement text = "none") := by
  refine ⟨?_, ?_, ?_⟩
  · intro h
    simp only [hasCoreHint] at h
    simp [infer_ai_involvement, h]
  · intro h1 h2
    simp only [hasCoreHint] at h1
    simp only [hasAssistedHint] at h2
    simp [infer_ai_involvement, h1, h2]
  · intro h1 h2
    simp only [hasCoreHint] at h1
    simp only [hasAssistedHint] at h2
    simp [infer_ai_involvement, h1, h2]

/-- Witness for C7: "training llm" carries both a core and an assisted
keyword and is classified "core"; "llm tool" is "assisted"; "plain tool"
is "none". -/
theorem ai_involvement_precedence_witness :
    (hasCoreHint "training llm" = true ∧ hasAssistedHint "training llm" = true ∧
        infer_ai_involvement "training llm" = "core") ∧
    infer_ai_involvement "llm tool" = "assisted" ∧
    infer_ai_involvement "plain tool" = "none" :=
  ⟨⟨by decide, by decide, (ai_involvement_precedence "training llm").1 (by decide)⟩,
   (ai_involvement_precedence "llm tool").2.1 (by decide) (by decide),
   (ai_involvement_precedence "plain tool").2.2 (by decide) (by decide)⟩

/-- C10: every candidate record built by the discovery stage has exactly
two evidence links — the repository URL first, then the homepage when
non-empty and otherwise the repository URL again — and both may be the
empty string when the repository URL is missing. -/
theorem candidate_evidence_links :
    (∀ name full_name html_url homepage desc created pushed stars forks open_issues
        age_years updated_days owner_login q today,
      (buildCandidate name full_name html_url homepage desc created pushed
          stars forks open_issues age_years updated_days owner_login q today).EvidenceLinks =
        [html_url, if homepage = "" then html_url else homepage] ∧
      (buildCandidate name full_name html_url homepage desc created pushed
          stars forks open_issues age_years updated_days owner_login q today).EvidenceLinks.length = 2) ∧
    buildEvidenceLinks "" "" = ["", ""] := by
  refine ⟨?_, by decide⟩
  intro name full_name html_url homepage desc created pushed stars forks open_issues
    age_years updated_days owner_login q today
  refine ⟨rfl, ?_⟩
  simp [buildCandidate, buildEvidenceLinks]

/-! ### Sorting and merge helper lemmas -/

theorem insertTool_perm (a : Tool) (l : List Tool) :
    (insertTool a l).Perm (a :: l) := by
  induction l with
  | nil => exact List.Perm.refl _
  | cons b bs ih =>
      simp only [insertTool]
      split
      · exact List.Perm.refl _
      · exact (List.Perm.cons b ih).trans (List.Perm.swap a b bs)

theorem sortTools_perm (l : List Tool) : (sortTools l).Perm l := by
  induction l with
  | nil => exact List.Perm.refl _
  | cons t ts ih =>
      exact (insertTool_perm t (sortTools ts)).trans (List.Perm.cons t ih)

theorem sortTools_mem (t : Tool) (l : List Tool) : t ∈ sortTools l ↔ t ∈ l :=
  (sortTools_perm l).mem_iff

/-- An already sorted list is returned unchanged by the stable sort. -/
theorem sortTools_of_sorted :
    ∀ l : List Tool, l.Pairwise (fun a b => toolLe a b = true) → sortTools l = l := by
  intro l hl
  induction l with
  | nil => rfl
  | cons t ts ih =>
      rw [List.pairwise_cons] at hl
      simp only [sortTools, ih hl.2]
      cases ts with
      | nil => rfl
      | cons u us =>
          simp only [insertTool, hl.1 u (List.mem_cons_self u us), if_true]

/-- `k in idx` distributes over dict concatenation. -/
theorem dictHasKey_append (m1 m2 : List (String × Tool)) (k : String) :
    dictHasKey (m1 ++ m2) k = (dictHasKey m1 k || dictHasKey m2 k) := by
  simp [dictHasKey, List.any_append]

/-- Folding the dict-comprehension step over records with non-empty,
pairwise-distinct normalized names, none already present, just appends
the corresponding key-record pairs. -/
theorem foldl_idxStep_append :
    ∀ (l : List Tool) (acc : List (String × Tool)),
      (∀ t ∈ l, t.ToolName ≠ "") →
      l.Pairwise (fun a b => normalize_name a.ToolName ≠ normalize_name b.ToolName) →
      (∀ t ∈ l, dictHasKey acc (normalize_name t.ToolName) = false) →
      l.foldl idxStep acc = acc ++ l.map (fun t => (normalize_name t.ToolName, t)) := by
  intro l
  induction l with
  | nil => intro acc _ _ _; simp
  | cons t ts ih =>
      intro acc hname hpw hkeys
      rw [List.pairwise_cons] at hpw
      have hstep : idxStep acc t = acc ++ [(normalize_name t.ToolName, t)] := by
        simp only [idxStep, if_neg (hname t (List.mem_cons_self t ts)), dictInsert]
        rw [hkeys t (List.mem_cons_self t ts)]
        simp
      have hkeys2 : ∀ u ∈ ts,
          dictHasKey (acc ++ [(normalize_name t.ToolName, t)]) (normalize_name u.ToolName) = false := by
        intro u hu
        rw [dictHasKey_append]
        have h1 : dictHasKey acc (normalize_name u.ToolName) = false :=
          hkeys u (List.mem_cons_of_mem t hu)
        have h2 : dictHasKey [(normalize_name t.ToolName, t)] (normalize_name u.ToolName) = false := by
          simp [dictHasKey, hpw.1 u hu]
        rw [h1, h2]
        rfl
      calc (t :: ts).foldl idxStep acc = ts.foldl idxStep (idxStep acc t) := rfl
        _ = ts.foldl idxStep (acc ++ [(normalize_name t.ToolName, t)]) := by rw [hstep]
        _ = acc ++ [(normalize_name t.ToolName, t)] ++
            ts.map (fun u => (normalize_name u.ToolName, u)) :=
          ih _ (fun u hu => hname u (List.mem_cons_of_mem t hu)) hpw.2 hkeys2
        _ = acc ++ (t :: ts).map (fun u => (normalize_name u.ToolName, u)) := by
          simp [List.append_assoc]

/-- A well-formed merge dict: keys are pairwise distinct and each entry
is keyed by the normalized name of its record. -/
def IdxKeyed (m : List (String × Tool)) : Prop :=
  m.Pairwise (fun p q => p.1 ≠ q.1) ∧ ∀ p ∈ m, p.1 = normalize_name p.2.ToolName

theorem idxKeyed_append (m : List (String × Tool)) (k : String) (v : Tool)
    (hm : IdxKeyed m) (hk : dictHasKey m k = false)
    (hv : k = normalize_name v.ToolName) : IdxKeyed (m ++ [(k, v)]) := by
  constructor
  · rw [List.pairwise_append]
    refine ⟨hm.1, List.pairwise_singleton _ _, ?_⟩
    intro p hp q hq
    simp only [List.mem_singleton] at hq
    subst hq
    intro hcontra
    have htrue : dictHasKey m k = true := by
      simp only [dictHasKey, List.any_eq_true]
      exact ⟨p, hp, by simp [hcontra]⟩
    rw [hk] at htrue
    exact Bool.false_ne_true htrue
  · intro p hp
    rcases List.mem_append.mp hp with h | h
    · exact hm.2 p h
    · simp only [List.mem_singleton] at h
      subst h
      exact hv

theorem dictInsert_keyed (m : List (String × Tool)) (v : Tool) (hm : IdxKeyed m) :
    IdxKeyed (dictInsert m (normalize_name v.ToolName) v) := by
  by_cases h : dictHasKey m (normalize_name v.ToolName) = true
  · simp only [dictInsert, h, if_true]
    have hkeyfix : ∀ p : String × Tool,
        ((if p.1 = normalize_name v.ToolName then (normalize_name v.ToolName, v) else p) :
          String × Tool).1 = p.1 := by
      intro p
      split
      · next heq => exact heq.symm
      · rfl
    constructor
    · apply List.Pairwise.map _ ?_ hm.1
      intro a b hne
      rw [hkeyfix a, hkeyfix b]
      exact hne
    · intro p hp
      obtain ⟨q, hq, rfl⟩ := List.mem_map.mp hp
      by_cases hq1 : q.1 = normalize_name v.ToolName
      · simp [hq1]
      · simp only [if_neg hq1]
        exact hm.2 q hq
  · simp only [dictInsert, h, if_false]
    exact idxKeyed_append m _ v hm (by simpa using h) rfl

theorem foldl_idxStep_keyed (l : List Tool) :
    ∀ acc, IdxKeyed acc → IdxKeyed (l.foldl idxStep acc) := by
  induction l with
  | nil => intro acc h; exact h
  | cons t ts ih =>
      intro acc h
      rw [List.foldl_cons]
      apply ih
      simp only [idxStep]
      split
      · exact h
      · exact dictInsert_keyed acc t h

theorem mergeLoop_keyed (new : List Tool) :
    ∀ (idx : List (String × Tool)) (i : Nat) (items : List Tool),
      IdxKeyed idx → IdxKeyed ((mergeLoop idx i items new).1) := by
  induction new with
  | nil => intro idx i items h; exact h
  | cons c cs ih =>
      intro idx i items h
      by_cases hcond : normalize_name c.ToolName = "" ∨
          dictHasKey idx (normalize_name c.ToolName) = true
      · simp only [mergeLoop, if_pos hcond]
        exact ih idx i items h
      · simp only [mergeLoop, if_neg hcond]
        push_neg at hcond
        exact ih _ _ _ (idxKeyed_append idx _ c h (by simpa using hcond.2) rfl)

/-- A record with non-empty name survives the dict comprehension as long
as no other record in the fold shares its normalized name. -/
theorem foldl_idxStep_mem (t : Tool) (ht : t.ToolName ≠ "") :
    ∀ (l : List Tool) (acc : List (String × Tool)),
      (∀ u ∈ l, normalize_name u.ToolName = normalize_name t.ToolName → u = t) →
      ((normalize_name t.ToolName, t) ∈ acc ∨ t ∈ l) →
      (normalize_name t.ToolName, t) ∈ l.foldl idxStep acc := by
  intro l
  induction l with
  | nil =>
      intro acc _ hmem
      rcases hmem with h | h
      · exact h
      · exact absurd h (List.not_mem_nil t)
  | cons u us ih =>
      intro acc huniq hmem
      rw [List.foldl_cons]
      apply ih
      · intro w hw hk
        exact huniq w (List.mem_cons_of_mem u hw) hk
      · rcases hmem with hin | hl
        · left
          simp only [idxStep]
          split
          · exact hin
          · by_cases hku : u.ToolName = t.ToolName
            · have hut : u = t := huniq u (List.mem_cons_self u us) (by rw [hku])
              subst hut
              have hkeq : dictHasKey acc (normalize_name u.ToolName) = true := by
                simp only [dictHasKey, List.any_eq_true]
                exact ⟨_, hin, by simp⟩
              simp only [dictInsert, hkeq, if_true]
              exact List.mem_map.mpr ⟨(normalize_name u.ToolName, u), hin, by simp⟩
            · by_cases hkeys : normalize_name u.ToolName = normalize_name t.ToolName
              · have hut : u = t := huniq u (List.mem_cons_self u us) hkeys
                exact absurd (congrArg Tool.ToolName hut) hku
              · simp only [dictInsert]
                split
                · refine List.mem_map.mpr ⟨(normalize_name t.ToolName, t), hin, ?_⟩
                  dsimp only
                  rw [if_neg (fun h => hkeys (Eq.symm h))]
                · exact List.mem_append.mpr (Or.inl hin)
        · rcases List.mem_cons.mp hl with heq | hus
          · subst heq
            left
            simp only [idxStep, if_neg ht]
            by_cases hk : dictHasKey acc (normalize_name t.ToolName) = true
            · simp only [dictInsert, hk, if_true]
              obtain ⟨p, hp, hp1⟩ := List.any_eq_true.mp hk
              rw [decide_eq_true_eq] at hp1
              exact List.mem_map.mpr ⟨p, hp, by simp [hp1]⟩
            · simp only [dictInsert, hk, if_false]
              exact List.mem_append.mpr (Or.inr (List.mem_singleton.mpr rfl))
          · right
            exact hus

/-- If every new candidate has an empty or already-present key, the
insertion loop is the identity on its accumulator. -/
theorem mergeLoop_skip_all (new : List Tool) :
    ∀ (idx : List (String × Tool)) (i : Nat) (items : List Tool),
      (∀ c ∈ new, normalize_name c.ToolName = "" ∨
          dictHasKey idx (normalize_name c.ToolName) = true) →
      mergeLoop idx i items new = (idx, i, items) := by
  induction new with
  | nil => intro idx i items _; rfl
  | cons c cs ih =>
      intro idx i items h
      simp only [mergeLoop, if_pos (h c (List.mem_cons_self c cs))]
      exact ih idx i items (fun d hd => h d (List.mem_cons_of_mem c hd))

/-- C1 (amended): merging an empty new batch always reports zero
insertions and an empty inserted-items list; the catalog itself comes
back unchanged provided its records all have non-empty names, carry
pairwise-distinct normalized names, and are already sorted by the
case-insensitive name key (the merge re-sorts its output, drops
empty-named records, and collapses duplicate keys, so those hypotheses
are necessary). -/
theorem merge_empty_batch :
    (∀ existing, (merge_tools existing []).2.1 = 0 ∧ (merge_tools existing []).2.2 = []) ∧
    (∀ existing : List Tool,
      (∀ t ∈ existing, t.ToolName ≠ "") →
      existing.Pairwise (fun a b => normalize_name a.ToolName ≠ normalize_name b.ToolName) →
      existing.Pairwise (fun a b => toolLe a b = true) →
      merge_tools existing [] = (existing, 0, [])) := by
  constructor
  · intro existing
    exact ⟨rfl, rfl⟩
  · intro existing h1 h2 h3
    have hidx : buildIdx existing = existing.map (fun t => (normalize_name t.ToolName, t)) :=
      foldl_idxStep_append existing [] h1 h2 (fun t _ => rfl)
    have hvals : (buildIdx existing).map (fun p => p.2) = existing := by
      rw [hidx, List.map_map]
      have hcomp : ((fun p : String × Tool => p.2) ∘ fun t => (normalize_name t.ToolName, t)) = id := rfl
      rw [hcomp, List.map_id]
    show (sortTools ((buildIdx existing).map (fun p => p.2)), 0, []) = (existing, 0, [])
    rw [hvals, sortTools_of_sorted existing h3]

/-- Counterexample for C1 as stated: an existing catalog that is not
sorted case-insensitively by name is returned re-sorted, not unchanged. -/
theorem merge_empty_batch_cx :
    (merge_tools [({ ToolName := "b" } : Tool), { ToolName := "a" }] []).1 ≠
      [({ ToolName := "b" } : Tool), { ToolName := "a" }] := by decide

/-- Witness for C1 (amended) on a sorted two-record catalog. -/
theorem merge_empty_batch_witness :
    merge_tools [({ ToolName := "Alpha" } : Tool), { ToolName := "Beta" }] [] =
      ([({ ToolName := "Alpha" } : Tool), { ToolName := "Beta" }], 0, []) :=
  merge_empty_batch.2 [{ ToolName := "Alpha" }, { ToolName := "Beta" }]
    (by decide) (by decide) (by decide)

/-- C2: the merged catalog never holds two records with the same
normalized-name key; and whenever a catalog (satisfying its distinct-key
invariant) holds a record named "Foo", merging a batch of records named
"foo", "FOO " or "  Foo" inserts nothing and leaves the "Foo" record in
the merged catalog untouched. -/
theorem merge_dedup_by_normalized_name :
    (∀ existing new, (merge_tools existing new).1.Pairwise
        (fun a b => normalize_name a.ToolName ≠ normalize_name b.ToolName)) ∧
    (∀ (existing new : List Tool) (t0 : Tool),
      existing.Pairwise (fun a b => normalize_name a.ToolName ≠ normalize_name b.ToolName) →
      t0 ∈ existing → t0.ToolName = "Foo" →
      (∀ c ∈ new, c.ToolName = "foo" ∨ c.ToolName = "FOO " ∨ c.ToolName = "  Foo") →
      (merge_tools existing new).2.1 = 0 ∧ (merge_tools existing new).2.2 = [] ∧
        t0 ∈ (merge_tools existing new).1) := by
  constructor
  · intro existing new
    have hbuild : IdxKeyed (buildIdx existing) :=
      foldl_idxStep_keyed existing [] ⟨List.Pairwise.nil, by simp⟩
    have hfinal : IdxKeyed ((mergeLoop (buildIdx existing) 0 [] new).1) :=
      mergeLoop_keyed new _ 0 [] hbuild
    have hvals : ((mergeLoop (buildIdx existing) 0 [] new).1.map (fun p => p.2)).Pairwise
        (fun a b => normalize_name a.ToolName ≠ normalize_name b.ToolName) := by
      rw [List.pairwise_map]
      apply List.Pairwise.imp_of_mem ?_ hfinal.1
      intro p q hp hq hne
      rw [← hfinal.2 p hp, ← hfinal.2 q hq]
      exact hne
    have hperm := sortTools_perm ((mergeLoop (buildIdx existing) 0 [] new).1.map (fun p => p.2))
    exact (hperm.pairwise_iff (fun {a b} h => Ne.symm h)).mpr hvals
  · intro existing new t0 hpw ht0 hname hnew
    have ht0ne : t0.ToolName ≠ "" := by rw [hname]; decide
    have hkey : normalize_name t0.ToolName = "foo" := by rw [hname]; decide
    have huniq : ∀ u ∈ existing, normalize_name u.ToolName = normalize_name t0.ToolName → u = t0 := by
      intro u hu hk
      by_contra hne
      exact List.Pairwise.forall (fun {a b} h => Ne.symm h) hpw hu ht0 hne hk
    have hmem : (normalize_name t0.ToolName, t0) ∈ buildIdx existing :=
      foldl_idxStep_mem t0 ht0ne existing [] huniq (Or.inr ht0)
    have hhas : dictHasKey (buildIdx existing) "foo" = true := by
      simp only [dictHasKey, List.any_eq_true]
      exact ⟨(normalize_name t0.ToolName, t0), hmem, by simp [hkey]⟩
    have hskip : ∀ c ∈ new, normalize_name c.ToolName = "" ∨
        dictHasKey (buildIdx existing) (normalize_name c.ToolName) = true := by
      intro c hc
      right
      rcases hnew c hc with h | h | h <;> rw [h]
      · rw [show normalize_name "foo" = "foo" from by decide]
        exact hhas
      · rw [show normalize_name "FOO " = "foo" from by decide]
        exact hhas
      · rw [show normalize_name "  Foo" = "foo" from by decide]
        exact hhas
    have hloop := mergeLoop_skip_all new (buildIdx existing) 0 [] hskip
    refine ⟨?_, ?_, ?_⟩
    · show (mergeLoop (buildIdx existing) 0 [] new).2.1 = 0
      rw [hloop]
    · show (mergeLoop (buildIdx existing) 0 [] new).2.2 = []
      rw [hloop]
    · show t0 ∈ sortTools ((mergeLoop (buildIdx existing) 0 [] new).1.map (fun p => p.2))
      rw [hloop, sortTools_mem]
      exact List.mem_map.mpr ⟨(normalize_name t0.ToolName, t0), hmem, rfl⟩

/-- Witness for C2: catalog `[Foo]` merged with the batch
`[foo, FOO␣, ␣␣Foo]` inserts nothing and keeps the `Foo` record. -/
theorem merge_dedup_by_normalized_name_witness :
    (merge_tools [({ ToolName := "Foo" } : Tool)]
        [{ ToolName := "foo" }, { ToolName := "FOO " }, { ToolName := "  Foo" }]).2.1 = 0 ∧
    (merge_tools [({ ToolName := "Foo" } : Tool)]
        [{ ToolName := "foo" }, { ToolName := "FOO " }, { ToolName := "  Foo" }]).2.2 = [] ∧
    ({ ToolName := "Foo" } : Tool) ∈
      (merge_tools [({ ToolName := "Foo" } : Tool)]
        [{ ToolName := "foo" }, { ToolName := "FOO " }, { ToolName := "  Foo" }]).1 :=
  merge_dedup_by_normalized_name.2
    [{ ToolName := "Foo" }]
    [{ ToolName := "foo" }, { ToolName := "FOO " }, { ToolName := "  Foo" }]
    { ToolName := "Foo" }
    (by decide) (by decide) (by decide) (by decide)

/-- Below the cap, the inner accumulation loop takes a prefix of its
items. -/
theorem collectInner_take (cap : Int) :
    ∀ (items acc : List Tool), (acc.length : Int) < cap →
      collectInner cap acc items = acc ++ items.take (cap - acc.length).toNat := by
  intro items
  induction items with
  | nil => intro acc _; simp [collectInner]
  | cons it rest ih =>
      intro acc hlt
      simp only [collectInner]
      by_cases hge : (((acc ++ [it]).length : Int) ≥ cap)
      · rw [if_pos hge]
        have hone : (cap - (acc.length : Int)).toNat = 1 := by
          simp only [List.length_append, List.length_cons, List.length_nil] at hge
          push_cast at hge
          omega
        rw [hone, List.take_succ_cons, List.take_zero]
      · rw [if_neg hge]
        have hlt2 : (((acc ++ [it]).length : Int) < cap) := by omega
        rw [ih (acc ++ [it]) hlt2]
        have hsucc : (cap - (acc.length : Int)).toNat =
            ((cap - ((acc ++ [it]).length : Int)).toNat) + 1 := by
          simp only [List.length_append, List.length_cons, List.length_nil] at hlt2 ⊢
          push_cast at hlt2 ⊢
          omega
        rw [hsucc, List.take_succ_cons]
        simp

/-- Below the cap, the outer per-query loop takes a prefix of the
flattened query results. -/
theorem collectOuter_take (cap : Int) :
    ∀ (queries : List (List Tool)) (acc : List Tool), (acc.length : Int) < cap →
      collectOuter cap acc queries = acc ++ queries.flatten.take (cap - acc.length).toNat := by
  intro queries
  induction queries with
  | nil => intro acc _; simp [collectOuter]
  | cons q rest ih =>
      intro acc hlt
      simp only [collectOuter]
      rw [collectInner_take cap q acc hlt]
      by_cases hge : (((acc ++ q.take (cap - (acc.length : Int)).toNat).length : Int) ≥ cap)
      · rw [if_pos hge]
        have hq : (cap - (acc.length : Int)).toNat ≤ q.length := by
          simp only [List.length_append, List.length_take] at hge
          push_cast at hge
          omega
        rw [List.flatten_cons, List.take_append_eq_append_take]
        have hz : (cap - (acc.length : Int)).toNat - q.length = 0 := by omega
        rw [hz, List.take_zero, List.append_nil]
      · rw [if_neg hge]
        have hlt2 : (((acc ++ q.take (cap - (acc.length : Int)).toNat).length : Int) < cap) := by
          omega
        rw [ih _ hlt2]
        have hq : q.length < (cap - (acc.length : Int)).toNat := by
          simp only [List.length_append, List.length_take] at hlt2
          push_cast at hlt2
          omega
        rw [List.take_of_length_le (le_of_lt hq)]
        have hrest : ((cap - (((acc ++ q).length : Int))).toNat) =
            (cap - (acc.length : Int)).toNat - q.length := by
          simp only [List.length_append]
          push_cast
          omega
        rw [hrest, List.flatten_cons, List.take_append_eq_append_take,
          List.take_of_length_le (le_of_lt hq), List.append_assoc]

/-- Below the bound, the dedup loop computes a truncated first-occurrence
dedup. -/
theorem dedupLoop_take (maxResults : Int) :
    ∀ (cs : List Tool) (seen : List String) (uniq : List Tool),
      (uniq.length : Int) < maxResults →
      dedupLoop maxResults seen uniq cs =
        uniq ++ (dedupByName seen cs).take (maxResults - uniq.length).toNat := by
  intro cs
  induction cs with
  | nil => intro seen uniq _; simp [dedupLoop, dedupByName]
  | cons c rest ih =>
      intro seen uniq hlt
      simp only [dedupLoop, dedupByName]
      by_cases hs : normalize_name c.ToolName ∈ seen
      · rw [if_pos hs, if_pos hs]
        exact ih seen uniq hlt
      · rw [if_neg hs, if_neg hs]
        by_cases hge : (((uniq ++ [c]).length : Int) ≥ maxResults)
        · rw [if_pos hge]
          have hone : (maxResults - (uniq.length : Int)).toNat = 1 := by
            simp only [List.length_append, List.length_cons, List.length_nil] at hge
            push_cast at hge
            omega
          rw [hone, List.take_succ_cons, List.take_zero]
        · rw [if_neg hge]
          have hlt2 : (((uniq ++ [c]).length : Int) < maxResults) := by omega
          rw [ih _ (uniq ++ [c]) hlt2]
          have hsucc : (maxResults - (uniq.length : Int)).toNat =
              ((maxResults - ((uniq ++ [c]).length : Int)).toNat) + 1 := by
            simp only [List.length_append, List.length_cons, List.length_nil] at hlt2 ⊢
            push_cast at hlt2 ⊢
            omega
          rw [hsucc, List.take_succ_cons]
          simp

/-- C8 (amended): for every `max_results ≥ 1` and every sequence of
per-query results, the batch-level dedup stage accumulates exactly the
first `3 × max_results` raw candidates, deduplicates by normalized name
keeping first occurrences, truncates to at most `max_results`, and
returns the result sorted case-insensitively by name.  (For
`max_results ≤ 0` the append-then-check loops still emit one record, see
the counterexample.) -/
theorem scout_dedup_eq_spec (maxResults : Int) (queries : List (List Tool))
    (h : 1 ≤ maxResults) :
    scout_dedup maxResults queries = scout_spec maxResults queries := by
  simp only [scout_dedup, scout_spec]
  rw [collectOuter_take (maxResults * 3) queries [] (by simp; omega)]
  rw [List.nil_append]
  rw [dedupLoop_take maxResults _ [] [] (by simp; omega)]
  rw [List.nil_append]
  have h1 : ((maxResults * 3 - (([] : List Tool).length : Int)).toNat) = (3 * maxResults).toNat := by
    simp
    omega
  have h2 : ((maxResults - (([] : List Tool).length : Int)).toNat) = maxResults.toNat := by
    simp
  rw [h1, h2]

/-- Counterexample for C8 as stated: at `max_results = 0` the stage
returns one candidate, not at most zero — the loops append before they
test the bound. -/
theorem scout_dedup_truncation_cx :
    (scout_dedup 0 [[({ ToolName := "a" } : Tool)]]).length = 1 ∧
    ¬ ((scout_dedup 0 [[({ ToolName := "a" } : Tool)]]).length ≤ 0) := by decide

/-- Witness for C8 (amended) at `max_results = 1` with two same-query
candidates: only the first survives. -/
theorem scout_dedup_eq_spec_witness :
    (1 : Int) ≤ 1 ∧
    scout_dedup 1 [[({ ToolName := "b" } : Tool), { ToolName := "a" }]] =
      scout_spec 1 [[({ ToolName := "b" } : Tool), { ToolName := "a" }]] :=
  ⟨by decide,
   scout_dedup_eq_spec 1 [[{ ToolName := "b" }, { ToolName := "a" }]] (by decide)⟩

/-- C9: a failure of the discovery/merge phase leaves the catalog
unwritten, produces a signal document holding exactly one ERROR entry
with empty broken links, and exits with code 1; on a successful
discovery the catalog is written and the exit code is 0 whatever the
link probes return — probe failures are data, never the error path. -/
theorem pipeline_fatal_error_path :
    (∀ existing probe e,
      runPipeline existing (Except.error e) probe =
        ⟨none, ⟨[Signal.fatalError e], []⟩, 1⟩) ∧
    (∀ existing discovered probe,
      (runPipeline existing (Except.ok discovered) probe).catalogWrite =
          some (merge_tools existing discovered).1 ∧
      (runPipeline existing (Except.ok discovered) probe).exitCode = 0) := by
  exact ⟨fun existing probe e => rfl, fun existing discovered probe => ⟨rfl, rfl⟩⟩

end ToolRadar
